import Mathlib

/-!
# immuadmin: bootstrap and dispatch layer

Shallow embedding of `cmd/immuadmin/immuadmin.go`: the package-level variables, `init`
and `main`.  `main` builds the root command, lets `commands.Init` attach the
administrative subcommands, attaches `c.VersionCmd(...)`, calls `cmd.Execute()` and hands a
returned error to `c.QuitToStdErr`.

What `main` calls lives outside the file:

* `github.com/spf13/cobra` (an external library): `Command`, `AddCommand`, `OnInitialize`,
  `Execute`.  Its dispatch path (`ExecuteC`, `Find`, `execute`, `preRun`) is embedded
  function by function in the section "cobra" below, as it stands in cobra v0.0.5;
  flag parsing (package `pflag`), which depends on the flags each node declares, is a
  parameter (`Framework`) wherever the arguments hold a flag.
* `c.Options.InitConfig`, `c.VersionCmd`, `c.QuitToStdErr` and `commands.Init` (packages of
  this repository whose source is not available): each is modelled from the specification
  and marked so.

A process run is observed through a trace of events and an exit status.
-/

namespace immuadmin

/-! ## Values exchanged with the framework -/

/-- A Go `error` value.  `ErrHelp` is the sentinel `pflag.ErrHelp`, which cobra treats as a
request for help; every other error is known by its text only. -/
inductive Error where
  | ErrHelp
  | New (text : String)
  deriving DecidableEq, Repr

/-- Textual representation of an error (the Go method `Error()`). -/
def Error.message : Error → String
  | .ErrHelp => "pflag: help requested"
  | .New text => text

/-- What an execution function writes. -/
inductive Output where
  | stdout (text : String)
  | stderr (text : String)
  deriving DecidableEq, Repr

/-- Observable steps of one process run, in order. -/
inductive Event where
  /-- the configuration initializer `o.InitConfig(name)` was called -/
  | initConfig (name : String)
  /-- the execution function (`Run`/`RunE`) of the node with this command path begins -/
  | begin (path : String)
  /-- the running execution function wrote this -/
  | wrote (out : Output)
  /-- the execution function returned this error value (`none` stands for `nil`) -/
  | finished (err : Option Error)
  /-- the framework wrote the help text of the node with this command path -/
  | help (path : String)
  /-- the framework itself wrote this line on standard error -/
  | printErr (text : String)
  /-- the framework itself wrote the usage text of the node with this command path -/
  | usage (path : String)
  /-- the reporter `c.QuitToStdErr` wrote this line on standard error -/
  | reported (text : String)
  deriving DecidableEq, Repr

namespace c

/-- The process-wide configuration holder `c.Options`.  Its settings are not read by the
bootstrap layer; the embedding keeps the names `InitConfig` was called with. -/
structure Options where
  loaded : List String := []
  deriving DecidableEq, Repr

/-- Modelled from the spec: `(*c.Options).InitConfig(name)`, whose source is not available.
It populates the options from the configuration source scoped by the application name. -/
def Options.InitConfig (opts : Options) (name : String) : Options :=
  { opts with loaded := opts.loaded ++ [name] }

end c

/-- State threaded through a run: the options `o` and the trace so far. -/
structure World where
  o : c.Options
  trace : List Event
  deriving DecidableEq, Repr

/-- Append one event to the trace. -/
def World.emit (w : World) (e : Event) : World :=
  { w with trace := w.trace ++ [e] }

/-- Append what an execution function wrote to the trace. -/
def World.write (w : World) (out : List Output) : World :=
  { w with trace := w.trace ++ out.map Event.wrote }

/-- Outcome of a process run: the trace and the exit status. -/
structure Process where
  trace : List Event
  status : Nat
  deriving DecidableEq, Repr

/-! ## cobra -/

namespace cobra

/-- What an execution function returns to the framework: what it wrote, and its error. -/
structure Result where
  output : List Output := []
  err : Option Error := none
  deriving DecidableEq, Repr

/-- The fields of `cobra.Command` that `main` sets or that decide the dispatch.  `RunE` is
the execution function of the node: it stands for `Run` and `RunE` (a `Run` is a `RunE`
that returns `nil`) together with whatever hooks the node declares around them
(`PersistentPreRun`, `PreRun`, `PostRun`, required flags), which `execute` calls in one
sequence after the argument validator.  It receives the positional arguments and the
options as they are when it starts.  `Args` is the positional-argument validator, `none`
when unset.  `commands` are the children, in registration order.  Fields that `main` leaves
unset and that only add output or another search order (`Deprecated`, `Version`,
`TraverseChildren`, `DisableFlagParsing`) are left out. -/
structure Command where
  Use : String := ""
  Aliases : List String := []
  Short : String := ""
  Long : String := ""
  Args : Option (List String → Option Error) := none
  RunE : Option (List String → c.Options → Result) := none
  SilenceErrors : Bool := false
  SilenceUsage : Bool := false
  DisableAutoGenTag : Bool := false
  commands : List Command

/-- Method `Name()`: the usage line up to its first space. -/
def Command.Name (cmd : Command) : String :=
  String.mk (cmd.Use.data.takeWhile (fun ch => ch != ' '))

/-- Method `HasAlias(s)`: `s` is one of the aliases. -/
def Command.HasAlias (cmd : Command) (s : String) : Bool :=
  cmd.Aliases.contains s

/-- Method `Runnable()`: the node has an execution function. -/
def Command.Runnable (cmd : Command) : Bool :=
  cmd.RunE.isSome

/-- Method `HasSubCommands()`: the node has children. -/
def Command.HasSubCommands (cmd : Command) : Bool :=
  !cmd.commands.isEmpty

/-- Method `AddCommand(sub)`: the child is appended to `commands`; nothing is checked
against the children already there. -/
def Command.AddCommand (cmd sub : Command) : Command :=
  { cmd with commands := cmd.commands ++ [sub] }

/-- The parts of the framework that depend on code or data outside this file: the flags
declared on the nodes (package `pflag`), the suggestion text of an unknown-command error,
the body of the built-in `help` command, and the Unicode tables of package `strconv`.
Nodes are named by their command path. -/
structure Framework where
  /-- the result of `stripFlags(args, c)` -/
  stripFlags : String → List String → List String
  /-- the result of `argsMinusFirstX(args, x)` -/
  argsMinusFirstX : String → List String → String → List String
  /-- the result of `c.ParseFlags(args)` followed by the lookup of the help flag: an
  error, or whether help was requested together with the positional arguments
  `c.Flags().Args()` -/
  ParseFlags : String → List String → Except Error (Bool × List String)
  /-- the text `c.findSuggestions(arg)` -/
  findSuggestions : String → String → String
  /-- what the `Run` of the built-in `help` command writes -/
  helpRun : List String → List Output
  /-- the table lookup of `strconv.IsPrint(r)` for a character above U+00FF -/
  IsPrint : Char → Bool

/-- An argument that is neither empty nor starts with a dash. -/
def isWord (s : String) : Bool :=
  match s.data with
  | [] => false
  | ch :: _ => ch != '-'

/-- An argument list without any flag: every argument is a word. -/
def plain (args : List String) : Bool :=
  args.all isWord

/-- Function `stripFlags(args, c)`: the arguments that are not flags.  On a list of words
nothing is stripped, whatever flags are declared. -/
def stripFlags (F : Framework) (path : String) (args : List String) : List String :=
  if plain args then args else F.stripFlags path args

/-- Function `argsMinusFirstX(args, x)`: the arguments without the first occurrence of `x`
that is not a flag value. -/
def argsMinusFirstX (F : Framework) (path : String) (args : List String) (x : String) :
    List String :=
  if plain args then args.erase x else F.argsMinusFirstX path args x

/-- Method `c.ParseFlags(args)` and the help-flag lookup of `execute`.  A list of words
parses without error, requests no help and is positional as a whole. -/
def ParseFlags (F : Framework) (path : String) (args : List String) :
    Except Error (Bool × List String) :=
  if plain args then .ok (false, args) else F.ParseFlags path args

/-- The node `Find` resolves: the node, its `CommandPath()`, its `HasParent()` and the
arguments left for it. -/
structure Found where
  cmd : Command
  path : String
  hasParent : Bool
  args : List String

/-- Whether `findNext` takes this child for the word `next` (prefix matching is off, its
default). -/
def Command.matchesName (sub : Command) (next : String) : Bool :=
  sub.Name == next || sub.HasAlias next

/-- Method `c.findNext(next)`: the first child whose name or alias is `next`. -/
def Command.findNext (cmd : Command) (next : String) : Option Command :=
  cmd.commands.find? (fun sub => sub.matchesName next)

mutual
/-- The closure `innerfind` of `Find`: descend while the first non-flag argument names a
child. -/
def innerfind (F : Framework) : String → Bool → Command → List String → Found
  | path, hasParent, ⟨u, al, sh, lo, ar, ru, se, su, di, cmds⟩, innerArgs =>
    match stripFlags F path innerArgs with
    | [] => ⟨⟨u, al, sh, lo, ar, ru, se, su, di, cmds⟩, path, hasParent, innerArgs⟩
    | nextSubCmd :: _ =>
      match innerfindNext F path cmds nextSubCmd
          (argsMinusFirstX F path innerArgs nextSubCmd) with
      | some found => found
      | none => ⟨⟨u, al, sh, lo, ar, ru, se, su, di, cmds⟩, path, hasParent, innerArgs⟩
/-- The scan of `findNext` over the children, continued by `innerfind` on the child it
returns. -/
def innerfindNext (F : Framework) : String → List Command → String → List String →
    Option Found
  | _, [], _, _ => none
  | path, sub :: rest, next, args =>
    if sub.matchesName next then
      some (innerfind F (path ++ " " ++ sub.Name) true sub args)
    else innerfindNext F path rest next args
end

/-- The digit that `lowerhex` of package `strconv` holds for the low four bits of `n`. -/
def lowerhex (n : Nat) : Char :=
  if n % 16 < 10 then Char.ofNat (48 + n % 16) else Char.ofNat (87 + n % 16)

/-- The `width` hexadecimal digits of `n`, most significant first. -/
def hexDigits : Nat → Nat → List Char
  | 0, _ => []
  | width + 1, n => lowerhex (n / 16 ^ width) :: hexDigits width n

/-- Function `strconv.IsPrint(r)`: up to U+00FF the printable characters are U+0020 to
U+007E and U+00A1 to U+00FF without U+00AD; above, the Unicode tables decide. -/
def IsPrint (F : Framework) (r : Char) : Bool :=
  if r.toNat ≤ 255 then
    (32 ≤ r.toNat && r.toNat ≤ 126) || (161 ≤ r.toNat && r.toNat != 173)
  else F.IsPrint r

/-- Function `appendEscapedRune(buf, r, quote, ASCIIonly, graphicOnly)` of package
`strconv`, for the double quote and both options off: the double quote (34) and the
backslash (92) get a backslash, a printable character stands for itself, the control
characters 7 to 13 have their letter, any other character is written in hexadecimal. -/
def appendEscapedRune (F : Framework) (r : Char) : List Char :=
  if r.toNat = 34 || r.toNat = 92 then [Char.ofNat 92, r]
  else if IsPrint F r then [r]
  else if r.toNat = 7 then [Char.ofNat 92, 'a']
  else if r.toNat = 8 then [Char.ofNat 92, 'b']
  else if r.toNat = 12 then [Char.ofNat 92, 'f']
  else if r.toNat = 10 then [Char.ofNat 92, 'n']
  else if r.toNat = 13 then [Char.ofNat 92, 'r']
  else if r.toNat = 9 then [Char.ofNat 92, 't']
  else if r.toNat = 11 then [Char.ofNat 92, 'v']
  else if r.toNat < 32 || r.toNat = 127 then Char.ofNat 92 :: 'x' :: hexDigits 2 r.toNat
  else if r.toNat < 65536 then Char.ofNat 92 :: 'u' :: hexDigits 4 r.toNat
  else Char.ofNat 92 :: 'U' :: hexDigits 8 r.toNat

/-- The verb `%q` applied to a string, that is `strconv.Quote(s)`: the characters, each
escaped by `appendEscapedRune`, between double quotes.  A string is a sequence of
characters here, so an argument is taken to be valid UTF-8. -/
def quote (F : Framework) (s : String) : String :=
  String.mk (Char.ofNat 34 :: ((s.data.map (appendEscapedRune F)).flatten ++ [Char.ofNat 34]))

/-- Function `legacyArgsValidation(cmd, args)`: a root with subcommands rejects a first
argument that named no child. -/
def legacyArgsValidation (F : Framework) (found : Found) (args : List String) :
    Option Error :=
  if !found.cmd.HasSubCommands then none
  else
    match found.hasParent, args with
    | false, arg :: _ =>
      some (Error.New ("unknown command " ++ quote F arg ++ " for " ++ quote F found.path ++
        F.findSuggestions found.path arg))
    | _, _ => none

/-- Method `c.Find(args)`: the resolved node and the arguments left for it, with the error
of `legacyArgsValidation` when the node has no argument validator. -/
def Command.Find (F : Framework) (root : Command) (args : List String) :
    Found × Option Error :=
  let found := innerfind F root.Name false root args
  match found.cmd.Args with
  | none => (found, legacyArgsValidation F found (stripFlags F found.path found.args))
  | some _ => (found, none)

/-- The built-in `help` command of `InitDefaultHelpCmd`. -/
def helpCommand (F : Framework) (root : Command) : Command :=
  { Use := "help [command]"
    Short := "Help about any command"
    Long := "Help provides help for any command in the application.\nSimply type " ++
      root.Name ++ " help [path to command] for full details."
    RunE := some (fun args _ => { output := F.helpRun args, err := none })
    commands := [] }

/-- Method `c.InitDefaultHelpCmd()`: a node with subcommands gets the `help` command as
its last child. -/
def Command.InitDefaultHelpCmd (F : Framework) (cmd : Command) : Command :=
  if cmd.HasSubCommands then cmd.AddCommand (helpCommand F cmd) else cmd

/-- A function registered with `cobra.OnInitialize`. -/
abbrev Initializer := World → World

/-- Function `cobra.OnInitialize(y)`: append to the package-level list `initializers`. -/
def OnInitialize (initializers : List Initializer) (y : Initializer) : List Initializer :=
  initializers ++ [y]

/-- Method `c.preRun()`: run the registered initializers in order. -/
def preRun (initializers : List Initializer) (w : World) : World :=
  initializers.foldl (fun acc y => y acc) w

/-- Method `c.ValidateArgs(args)`: the validator applied to the positional arguments. -/
def Command.ValidateArgs (cmd : Command) (args : List String) : Option Error :=
  match cmd.Args with
  | none => none
  | some validate => validate args

/-- Method `c.execute(a)` on the resolved node: parse the flags; a requested help or a node
without execution function yields `ErrHelp`; otherwise run the initializers, validate the
positional arguments and call the execution function. -/
def execute (F : Framework) (initializers : List Initializer) (found : Found) (w : World) :
    World × Option Error :=
  match ParseFlags F found.path found.args with
  | .error err => (w, some err)
  | .ok (helpVal, argWoFlags) =>
    if helpVal then (w, some Error.ErrHelp)
    else
      match found.cmd.RunE with
      | none => (w, some Error.ErrHelp)
      | some run =>
        let w1 := preRun initializers w
        match found.cmd.ValidateArgs argWoFlags with
        | some err => (w1, some err)
        | none =>
          let w2 := w1.emit (Event.begin found.path)
          let r := run argWoFlags w2.o
          (((w2.write r.output).emit (Event.finished r.err)), r.err)

/-- Method `c.ExecuteC()` on a root: add the `help` command, resolve the node, execute it.
`ErrHelp` becomes the help text and no error.  Any other error is printed by the
framework unless `SilenceErrors` is set on the node or the root, followed by the usage
text unless `SilenceUsage` is set on the node or the root; then it is returned. -/
def Command.ExecuteC (F : Framework) (initializers : List Initializer) (cmd : Command)
    (args : List String) (w : World) : World × Option Error :=
  let root := cmd.InitDefaultHelpCmd F
  match root.Find F args with
  | (found, some err) =>
    if !found.cmd.SilenceErrors then
      (((w.emit (Event.printErr ("Error: " ++ err.message))).emit
        (Event.printErr ("Run " ++ "\x27" ++ found.path ++ " --help" ++ "\x27" ++
          " for usage."))), some err)
    else (w, some err)
  | (found, none) =>
    match execute F initializers found w with
    | (w1, none) => (w1, none)
    | (w1, some err) =>
      if err = Error.ErrHelp then (w1.emit (Event.help found.path), none)
      else
        let w2 := if !found.cmd.SilenceErrors && !root.SilenceErrors then
            w1.emit (Event.printErr ("Error: " ++ err.message)) else w1
        let w3 := if !found.cmd.SilenceUsage && !root.SilenceUsage then
            w2.emit (Event.usage found.path) else w2
        (w3, some err)

/-- Method `c.Execute()`: `ExecuteC` without the resolved node. -/
def Command.Execute (F : Framework) (initializers : List Initializer) (cmd : Command)
    (args : List String) (w : World) : World × Option Error :=
  cmd.ExecuteC F initializers args w

end cobra

open cobra

/-! ## Packages `c` and `commands` -/

namespace c

/-- Modelled from the spec: the text `c.VersionCmd` prints, whose source is not available:
the application identity "in a fixed human-readable layout", an unset value rendering as
empty.  The layout taken here puts name and version on the first line and one labelled
value on each line after it. -/
def VersionStr (App Version Commit BuiltBy BuiltAt : String) : String :=
  App ++ " " ++ Version ++ "\nCommit  : " ++ Commit ++ "\nBuilt by: " ++ BuiltBy ++
    "\nBuilt at: " ++ BuiltAt

/-- Modelled from the spec: `c.VersionCmd(App, Version, Commit, BuiltBy, BuiltAt)`, whose
source is not available: a node named `version` whose execution function prints the
application identity on standard output and always succeeds. -/
def VersionCmd (App Version Commit BuiltBy BuiltAt : String) : Command :=
  { Use := "version"
    RunE := some (fun _ _ =>
      { output := [Output.stdout (VersionStr App Version Commit BuiltBy BuiltAt)]
        err := none })
    commands := [] }

/-- Status with which `c.QuitToStdErr` ends the process: the spec fixes a single non-zero
value and names 1 as the usual one. -/
def quitStatus : Nat := 1

/-- Modelled from the spec: `c.QuitToStdErr(err)`, whose source is not available: write the
textual representation of the error on standard error and end the process with a non-zero
status. -/
def QuitToStdErr (err : Error) (w : World) : Process :=
  { trace := w.trace ++ [Event.reported err.message], status := quitStatus }

end c

namespace commands

/-- Modelled from the spec: `commands.Init(cmd, o)`, whose source is not available: it
populates the root with the administrative subcommands.  The subcommands are a parameter,
`registry`, attached in order. -/
def Init (registry : List Command) (cmd : Command) : Command :=
  registry.foldl Command.AddCommand cmd

end commands

/-! ## Package `main` -/

/-- The package-level variables `App`, `Version`, `Commit`, `BuiltBy`, `BuiltAt`: the
application identity, set at build time. -/
structure Identity where
  App : String := "immuadmin"
  Version : String := ""
  Commit : String := ""
  BuiltBy : String := ""
  BuiltAt : String := ""
  deriving DecidableEq, Repr

/-- The variable `var o = &c.Options{}`. -/
def o : c.Options := {}

/-- The function `init()`: registers the configuration initializer with
`cobra.OnInitialize`.  The list of initializers is empty before: no other package is taken
to register one. -/
def init : List Initializer :=
  OnInitialize [] (fun w =>
    { o := w.o.InitConfig "immuadmin", trace := w.trace ++ [Event.initConfig "immuadmin"] })

/-- The literal `&cobra.Command{...}` of `main`. -/
def rootCmd : Command :=
  { Use := "immuadmin"
    Short := "CLI admin client for immudb - the lightweight, high-speed immutable database for systems and applications"
    Long := "CLI admin client for immudb - the lightweight, high-speed immutable database for systems and applications.\n\nEnvironment variables:\n  IMMUADMIN_ADDRESS=127.0.0.1\n  IMMUADMIN_PORT=3322\n  IMMUADMIN_MTLS=true"
    SilenceUsage := true
    SilenceErrors := true
    DisableAutoGenTag := true
    commands := [] }

/-- The tree `main` builds around a node `version`: the root literal, after
`commands.Init(cmd, o)` and `cmd.AddCommand(version)`. -/
def treeWith (registry : List Command) (version : Command) : Command :=
  (commands.Init registry rootCmd).AddCommand version

/-- The command tree `main` executes: `treeWith` the node
`c.VersionCmd(App, Version, Commit, BuiltBy, BuiltAt)`. -/
def tree (registry : List Command) (ident : Identity) : Command :=
  treeWith registry
    (c.VersionCmd ident.App ident.Version ident.Commit ident.BuiltBy ident.BuiltAt)

/-- The function `main()`, run with the arguments `args` (`os.Args[1:]`): execute the
tree; a returned error goes to `c.QuitToStdErr`, otherwise `main` returns and the status
is 0. -/
def main (F : Framework) (registry : List Command) (ident : Identity) (args : List String) :
    Process :=
  match (tree registry ident).Execute F init args { o := o, trace := [] } with
  | (w, some err) => c.QuitToStdErr err w
  | (w, none) => { trace := w.trace, status := 0 }

/-! ## Observations on traces, and inputs for concrete runs -/

/-- The event is a call of the configuration initializer. -/
def Event.isInitConfig : Event → Bool
  | .initConfig _ => true
  | _ => false

/-- The event is the start of an execution function. -/
def Event.isBegin : Event → Bool
  | .begin _ => true
  | _ => false

/-- The event is error reporting: an error line or usage text printed by the framework,
or the line written by `c.QuitToStdErr`. -/
def Event.isErrorReport : Event → Bool
  | .printErr _ => true
  | .usage _ => true
  | .reported _ => true
  | _ => false

/-- The text contains the value as a contiguous run of characters. -/
def containsText (text value : String) : Prop :=
  value.data <:+: text.data

/-- A framework instance for runs whose arguments are all words of ASCII characters; on
such arguments its flag functions and its character table are never consulted.  It
suggests nothing and its `help` command is silent. -/
def wordsOnly : Framework :=
  { stripFlags := fun _ args => args.filter isWord
    argsMinusFirstX := fun _ args x => args.erase x
    ParseFlags := fun _ _ => .error (Error.New "unknown flag")
    findSuggestions := fun _ _ => ""
    helpRun := fun _ => []
    IsPrint := fun _ => true }

/-- Upper-case form of a name. -/
def upper (s : String) : String :=
  String.mk (s.data.map Char.toUpper)

/-- The lines of a text. -/
def splitLines : List Char → List (List Char)
  | [] => [[]]
  | ch :: rest =>
    match splitLines rest with
    | [] => [[ch]]
    | line :: more => if ch = '\n' then [] :: line :: more else (ch :: line) :: more

/-- The environment variables a long description documents: the lines that follow the
heading `Environment variables:`, each of the form `NAME=value`, give the names. -/
def documentedVariables (long : String) : List String :=
  (((splitLines long.data).dropWhile (fun line => line != "Environment variables:".data)).drop
    1).map (fun line => String.mk ((line.dropWhile (fun ch => ch == ' ')).takeWhile
      (fun ch => ch != '=')))

/-- A registry node whose execution function fails with the error `boom`. -/
def failing : Command :=
  { Use := "fail"
    RunE := some (fun _ _ => { output := [], err := some (Error.New "boom") })
    commands := [] }

/-- A registry node whose execution function returns the help sentinel `pflag.ErrHelp`. -/
def helpAsking : Command :=
  { Use := "ask"
    RunE := some (fun _ _ => { output := [], err := some Error.ErrHelp })
    commands := [] }

/-- A registry node that is itself named `version`. -/
def registryVersion : Command :=
  { Use := "version"
    RunE := some (fun _ _ => { output := [Output.stdout "registry version"], err := none })
    commands := [] }

/-- The outcomes of `Execute` on the tree of `main`, started with the options `o` and an
empty trace: an error before anything ran, help, an error of the argument validator after
the initializer, and a run of an execution function. -/
inductive Shape : World × Option Error → Prop
  | early (e : Error) : Shape (⟨o, []⟩, some e)
  | help (p : String) : Shape (⟨o, [Event.help p]⟩, none)
  | invalid (e : Error) :
      Shape (⟨o.InitConfig "immuadmin", [Event.initConfig "immuadmin"]⟩, some e)
  | invalidHelp (p : String) :
      Shape (⟨o.InitConfig "immuadmin", [Event.initConfig "immuadmin", Event.help p]⟩, none)
  | ran (p : String) (out : List Output) (res : Option Error) (h : res ≠ some Error.ErrHelp) :
      Shape (⟨o.InitConfig "immuadmin", Event.initConfig "immuadmin" :: Event.begin p ::
        (out.map Event.wrote ++ [Event.finished res])⟩, res)
  | ranHelp (p : String) (out : List Output) :
      Shape (⟨o.InitConfig "immuadmin", Event.initConfig "immuadmin" :: Event.begin p ::
        (out.map Event.wrote ++ [Event.finished (some Error.ErrHelp), Event.help p])⟩, none)

/-! ## Lemmas on the framework -/

theorem innerfind_eq (F : Framework) (path : String) (hp : Bool) (cmd : Command)
    (args : List String) :
    innerfind F path hp cmd args =
      match stripFlags F path args with
      | [] => ⟨cmd, path, hp, args⟩
      | next :: _ =>
        match innerfindNext F path cmd.commands next (argsMinusFirstX F path args next) with
        | some found => found
        | none => ⟨cmd, path, hp, args⟩ := by
  cases cmd
  rw [innerfind]

theorem innerfindNext_nil (F : Framework) (path next : String) (args : List String) :
    innerfindNext F path [] next args = none := by
  rw [innerfindNext]

theorem innerfindNext_cons (F : Framework) (path next : String) (sub : Command)
    (rest : List Command) (args : List String) :
    innerfindNext F path (sub :: rest) next args =
      if sub.matchesName next then some (innerfind F (path ++ " " ++ sub.Name) true sub args)
      else innerfindNext F path rest next args := by
  rw [innerfindNext]

/-- The fused scan is `findNext` followed by `innerfind` on the child it returns. -/
theorem innerfindNext_findNext (F : Framework) (path next : String) (args : List String)
    (cmds : List Command) :
    innerfindNext F path cmds next args =
      (cmds.find? (fun sub => sub.matchesName next)).map
        (fun sub => innerfind F (path ++ " " ++ sub.Name) true sub args) := by
  induction cmds with
  | nil => rw [innerfindNext_nil]; rfl
  | cons x xs ih =>
    rw [innerfindNext_cons, List.find?_cons]
    cases hm : x.matchesName next with
    | true => simp
    | false => simpa using ih

/-- The closure `innerfind` as cobra writes it: strip the flags, look the first word up
with `findNext`, and recurse into the child without that word. -/
theorem innerfind_findNext (F : Framework) (path : String) (hp : Bool) (cmd : Command)
    (args : List String) :
    innerfind F path hp cmd args =
      match stripFlags F path args with
      | [] => ⟨cmd, path, hp, args⟩
      | next :: _ =>
        match cmd.findNext next with
        | some sub =>
          innerfind F (path ++ " " ++ sub.Name) true sub (argsMinusFirstX F path args next)
        | none => ⟨cmd, path, hp, args⟩ := by
  rw [innerfind_eq]
  split
  · rfl
  · next next rest hs =>
    rw [innerfindNext_findNext, Command.findNext]
    cases hf : List.find? (fun sub => sub.matchesName next) cmd.commands <;> simp

mutual
theorem innerfind_hasParent (F : Framework) :
    ∀ (path : String) (cmd : Command) (args : List String),
      (innerfind F path true cmd args).hasParent = true
  | path, ⟨u, al, sh, lo, ar, ru, se, su, di, cmds⟩, args => by
    rw [innerfind]
    split
    · rfl
    · split
      · next found h => exact innerfindNext_hasParent F path cmds _ _ found h
      · rfl
theorem innerfindNext_hasParent (F : Framework) :
    ∀ (path : String) (cmds : List Command) (next : String) (args : List String)
      (found : Found), innerfindNext F path cmds next args = some found →
      found.hasParent = true
  | _, [], _, _, _, h => by rw [innerfindNext] at h; cases h
  | path, sub :: rest, next, args, found, h => by
    rw [innerfindNext] at h
    split at h
    · cases h; exact innerfind_hasParent F _ sub args
    · exact innerfindNext_hasParent F path rest next args found h
end

/-- A resolved node without parent is the node the search started from. -/
theorem innerfind_root (F : Framework) (path : String) (cmd : Command) (args : List String)
    (h : (innerfind F path false cmd args).hasParent = false) :
    (innerfind F path false cmd args).cmd = cmd := by
  rw [innerfind_eq] at h ⊢
  split
  · rfl
  · split
    · next found hf =>
      have := innerfindNext_hasParent F path _ _ _ found hf
      simp_all
    · rfl

/-- An error of `Find` comes from a node without parent: the root itself. -/
theorem Find_err_root (F : Framework) (root : Command) (args : List String) (e : Error)
    (h : (root.Find F args).2 = some e) : (root.Find F args).1.cmd = root := by
  unfold Command.Find at h ⊢
  simp only at h ⊢
  split at h
  · next hA =>
    simp only [hA]
    apply innerfind_root
    unfold legacyArgsValidation at h
    split at h
    · cases h
    · split at h
      · assumption
      · cases h
  · cases h

theorem Init_eq (registry : List Command) (cmd : Command) :
    commands.Init registry cmd = { cmd with commands := cmd.commands ++ registry } := by
  induction registry generalizing cmd with
  | nil => cases cmd; simp [commands.Init]
  | cons x xs ih =>
    have := ih (cmd.AddCommand x)
    simp only [commands.Init, List.foldl_cons] at this ⊢
    rw [this]
    simp [Command.AddCommand]

theorem treeWith_eq (registry : List Command) (version : Command) :
    treeWith registry version = { rootCmd with commands := registry ++ [version] } := by
  unfold treeWith
  rw [Init_eq]
  simp [Command.AddCommand, rootCmd]

theorem Name_immuadmin (cmd : Command) (h : cmd.Use = "immuadmin") :
    cmd.Name = "immuadmin" := by
  unfold Command.Name
  rw [h]
  decide

theorem treeWith_Name (registry : List Command) (version : Command) :
    (treeWith registry version).Name = "immuadmin" := by
  rw [treeWith_eq]
  exact Name_immuadmin _ rfl

theorem helpCommand_treeWith (F : Framework) (registry : List Command) (version : Command) :
    helpCommand F (treeWith registry version) = helpCommand F rootCmd := by
  unfold helpCommand
  rw [treeWith_Name]
  rfl

theorem treeWith_help (F : Framework) (registry : List Command) (version : Command) :
    (treeWith registry version).InitDefaultHelpCmd F = { rootCmd with commands := registry ++
      [version, helpCommand F rootCmd] } := by
  unfold Command.InitDefaultHelpCmd
  rw [helpCommand_treeWith, treeWith_eq]
  simp [Command.AddCommand, Command.HasSubCommands]

theorem tree_help (F : Framework) (registry : List Command) (ident : Identity) :
    (tree registry ident).InitDefaultHelpCmd F = { rootCmd with commands := registry ++
      [c.VersionCmd ident.App ident.Version ident.Commit ident.BuiltBy ident.BuiltAt,
       helpCommand F rootCmd] } :=
  treeWith_help F registry _

theorem preRun_init (w : World) :
    preRun init w = ⟨w.o.InitConfig "immuadmin", w.trace ++ [Event.initConfig "immuadmin"]⟩ := by
  simp [preRun, init, OnInitialize]

theorem Execute_shape (F : Framework) (registry : List Command) (ident : Identity)
    (args : List String) :
    Shape ((tree registry ident).Execute F init args ⟨o, []⟩) := by
  unfold Command.Execute Command.ExecuteC
  simp only
  have hroot := Find_err_root F ((tree registry ident).InitDefaultHelpCmd F) args
  have hSE : ((tree registry ident).InitDefaultHelpCmd F).SilenceErrors = true := by
    rw [tree_help]; rfl
  have hSU : ((tree registry ident).InitDefaultHelpCmd F).SilenceUsage = true := by
    rw [tree_help]; rfl
  generalize ((tree registry ident).InitDefaultHelpCmd F) = root at hroot hSE hSU
  generalize hf : root.Find F args = fr at hroot
  obtain ⟨found, ferr⟩ := fr
  cases ferr with
  | some e =>
    have := hroot e rfl
    simp only at this
    simp only [this, hSE]
    exact Shape.early e
  | none =>
    simp only
    unfold execute
    cases hp : ParseFlags F found.path found.args with
    | error e =>
      simp only [hSE, hSU]
      by_cases he : e = Error.ErrHelp
      · simp [he, World.emit]; exact Shape.help _
      · simp [he]; exact Shape.early e
    | ok v =>
      obtain ⟨helpVal, argWo⟩ := v
      cases helpVal with
      | true => simp [World.emit]; exact Shape.help _
      | false =>
        cases hr : found.cmd.RunE with
        | none => simp [World.emit]; exact Shape.help _
        | some run =>
          cases hv : found.cmd.ValidateArgs argWo with
          | some e =>
            simp only [hv, preRun_init, hSE, hSU]
            by_cases he : e = Error.ErrHelp
            · simp [he, World.emit]; exact Shape.invalidHelp _
            · simp [he]; exact Shape.invalid e
          | none =>
            simp only [hv, preRun_init, hSE, hSU, World.emit, World.write]
            generalize run argWo _ = r
            obtain ⟨out, res⟩ := r
            cases res with
            | none => simpa using Shape.ran found.path out none (by simp)
            | some e =>
              by_cases he : e = Error.ErrHelp
              · simpa [he] using Shape.ranHelp found.path out
              · simpa [he] using Shape.ran found.path out (some e) (by simpa using he)

theorem innerfindNext_skip (F : Framework) (path next : String) (args : List String)
    (l1 l2 : List Command) (h : ∀ x ∈ l1, x.matchesName next = false) :
    innerfindNext F path (l1 ++ l2) next args = innerfindNext F path l2 next args := by
  induction l1 with
  | nil => rfl
  | cons x xs ih =>
    rw [List.cons_append, innerfindNext_cons, h x (List.mem_cons_self _ _)]
    simpa using ih (fun y hy => h y (List.mem_cons_of_mem _ hy))

theorem stripFlags_plain (F : Framework) (path : String) (args : List String)
    (h : plain args = true) : stripFlags F path args = args := by
  simp [stripFlags, h]

theorem ParseFlags_plain (F : Framework) (path : String) (args : List String)
    (h : plain args = true) : ParseFlags F path args = .ok (false, args) := by
  simp [ParseFlags, h]

theorem argsMinusFirstX_head (F : Framework) (path a : String) (rest : List String)
    (h : plain (a :: rest) = true) : argsMinusFirstX F path (a :: rest) a = rest := by
  simp [argsMinusFirstX, h]

theorem Name_version (cmd : Command) (h : cmd.Use = "version") : cmd.Name = "version" := by
  unfold Command.Name
  rw [h]
  decide

theorem Name_help (cmd : Command) (h : cmd.Use = "help [command]") : cmd.Name = "help" := by
  unfold Command.Name
  rw [h]
  decide

theorem VersionCmd_Name (a b d e f : String) : (c.VersionCmd a b d e f).Name = "version" :=
  Name_version _ rfl

theorem helpCommand_Name (F : Framework) (root : Command) :
    (helpCommand F root).Name = "help" :=
  Name_help _ rfl

theorem VersionCmd_matchesName (a b d e f next : String) :
    (c.VersionCmd a b d e f).matchesName next = ("version" == next) := by
  rw [Command.matchesName, VersionCmd_Name]
  simp [Command.HasAlias, c.VersionCmd]

theorem helpCommand_matchesName (F : Framework) (root : Command) (next : String) :
    (helpCommand F root).matchesName next = ("help" == next) := by
  rw [Command.matchesName, helpCommand_Name]
  simp [Command.HasAlias, helpCommand]

theorem tree_help_Name (F : Framework) (registry : List Command) (ident : Identity) :
    ((tree registry ident).InitDefaultHelpCmd F).Name = "immuadmin" := by
  rw [tree_help]
  exact Name_immuadmin _ rfl

/-- Resolution by `Find` on the tree without arguments resolves the root. -/
theorem Find_no_args (F : Framework) (registry : List Command) (ident : Identity) :
    ((tree registry ident).InitDefaultHelpCmd F).Find F [] =
      (⟨(tree registry ident).InitDefaultHelpCmd F, "immuadmin", false, []⟩, none) := by
  have hp : plain [] = true := rfl
  unfold Command.Find
  simp only
  rw [tree_help_Name, innerfind_eq, stripFlags_plain _ _ _ hp]
  simp only [stripFlags_plain _ _ _ hp]
  rw [tree_help]
  simp [rootCmd, legacyArgsValidation]

/-- Running the tree without arguments. -/
theorem Execute_no_args (F : Framework) (registry : List Command) (ident : Identity) :
    (tree registry ident).Execute F init [] { o := o, trace := [] } =
      ({ o := o, trace := [Event.help "immuadmin"] }, none) := by
  have hp : plain [] = true := rfl
  unfold Command.Execute Command.ExecuteC
  simp only [Find_no_args, execute, ParseFlags_plain _ _ _ hp]
  rw [tree_help]
  simp [rootCmd, World.emit]

/-- Resolution by `Find` on words the first of which names no child of the root. -/
theorem Find_unknown (F : Framework) (registry : List Command) (ident : Identity)
    (a : String) (rest : List String) (hp : plain (a :: rest) = true)
    (hreg : ∀ x ∈ registry, x.matchesName a = false) (hv : a ≠ "version")
    (hh : a ≠ "help") :
    ((tree registry ident).InitDefaultHelpCmd F).Find F (a :: rest) =
      (⟨(tree registry ident).InitDefaultHelpCmd F, "immuadmin", false, a :: rest⟩,
        some (Error.New ("unknown command " ++ quote F a ++ " for " ++
        quote F "immuadmin" ++ F.findSuggestions "immuadmin" a))) := by
  have h1 : innerfindNext F "immuadmin" ((tree registry ident).InitDefaultHelpCmd F).commands
      a rest = none := by
    rw [tree_help]
    simp only
    rw [innerfindNext_skip _ _ _ _ _ _ hreg, innerfindNext_cons, innerfindNext_cons,
      innerfindNext_nil, VersionCmd_matchesName, helpCommand_matchesName]
    simp [Ne.symm hv, Ne.symm hh]
  unfold Command.Find
  simp only
  rw [tree_help_Name, innerfind_eq, stripFlags_plain _ _ _ hp]
  simp only [argsMinusFirstX_head _ _ _ _ hp, h1, stripFlags_plain _ _ _ hp]
  rw [tree_help]
  simp [rootCmd, legacyArgsValidation, Command.HasSubCommands]

/-- Running the tree on words the first of which names no child of the root. -/
theorem Execute_unknown (F : Framework) (registry : List Command) (ident : Identity)
    (a : String) (rest : List String) (hp : plain (a :: rest) = true)
    (hreg : ∀ x ∈ registry, x.matchesName a = false) (hv : a ≠ "version")
    (hh : a ≠ "help") :
    (tree registry ident).Execute F init (a :: rest) { o := o, trace := [] } =
      ({ o := o, trace := [] }, some (Error.New ("unknown command " ++ quote F a ++ " for " ++
        quote F "immuadmin" ++ F.findSuggestions "immuadmin" a))) := by
  unfold Command.Execute Command.ExecuteC
  simp only [Find_unknown F registry ident a rest hp hreg hv hh]
  rw [tree_help]
  simp [rootCmd]

/-- Resolution by `Find` on the single word `version` when the registry has no node of that name. -/
theorem Find_version (F : Framework) (registry : List Command) (ident : Identity)
    (hreg : ∀ x ∈ registry, x.matchesName "version" = false) :
    ((tree registry ident).InitDefaultHelpCmd F).Find F ["version"] =
      (⟨c.VersionCmd ident.App ident.Version ident.Commit ident.BuiltBy ident.BuiltAt,
        "immuadmin version", true, []⟩, none) := by
  have hp : plain ["version"] = true := by decide
  have hp0 : plain [] = true := rfl
  have h1 : innerfindNext F "immuadmin" ((tree registry ident).InitDefaultHelpCmd F).commands
      "version" [] =
      some ⟨c.VersionCmd ident.App ident.Version ident.Commit ident.BuiltBy ident.BuiltAt,
        "immuadmin version", true, []⟩ := by
    rw [tree_help]
    simp only
    rw [innerfindNext_skip _ _ _ _ _ _ hreg, innerfindNext_cons, VersionCmd_matchesName]
    simp only [beq_self_eq_true, if_true, VersionCmd_Name, innerfind_eq,
      stripFlags_plain _ _ _ hp0]
    rfl
  unfold Command.Find
  simp only
  rw [tree_help_Name, innerfind_eq, stripFlags_plain _ _ _ hp]
  simp only [argsMinusFirstX_head _ _ _ _ hp, h1]
  simp [c.VersionCmd, legacyArgsValidation, Command.HasSubCommands]

/-- Running the tree on the single word `version` when the registry has no node of that
name. -/
theorem Execute_version (F : Framework) (registry : List Command) (ident : Identity)
    (hreg : ∀ x ∈ registry, x.matchesName "version" = false) :
    (tree registry ident).Execute F init ["version"] { o := o, trace := [] } =
      ({ o := o.InitConfig "immuadmin",
         trace := [Event.initConfig "immuadmin", Event.begin "immuadmin version",
           Event.wrote (Output.stdout
             (c.VersionStr ident.App ident.Version ident.Commit ident.BuiltBy ident.BuiltAt)),
           Event.finished none] }, none) := by
  have hp0 : plain [] = true := rfl
  unfold Command.Execute Command.ExecuteC
  simp only [Find_version F registry ident hreg, execute, ParseFlags_plain _ _ _ hp0, preRun_init]
  simp [c.VersionCmd, Command.ValidateArgs, World.emit, World.write]

theorem matchesName_version (x : Command) (hx : x.Name = "version") (hxa : x.Aliases = [])
    (next : String) : x.matchesName next = ("version" == next) := by
  simp [Command.matchesName, hx, Command.HasAlias, hxa]

theorem innerfindNext_shadow (F : Framework) (path next : String) (args : List String)
    (x y h : Command) (hx : x.Name = "version") (hxa : x.Aliases = [])
    (hy : y.Name = "version") (hya : y.Aliases = []) (registry : List Command)
    (hs : next = "version" → ∃ v ∈ registry, v.matchesName next = true) :
    innerfindNext F path (registry ++ [x, h]) next args =
      innerfindNext F path (registry ++ [y, h]) next args := by
  induction registry with
  | nil =>
    have hne : ("version" == next) = false := by
      cases hb : ("version" == next) with
      | false => rfl
      | true =>
        have : next = "version" := by simpa using (beq_iff_eq.mp hb).symm
        simpa using hs this
    simp only [List.nil_append]
    rw [innerfindNext_cons, innerfindNext_cons F path next y, matchesName_version x hx hxa,
      matchesName_version y hy hya, hne]
    simp
  | cons r rs ih =>
    simp only [List.cons_append]
    rw [innerfindNext_cons, innerfindNext_cons F path next r]
    cases hm : r.matchesName next with
    | true => simp
    | false =>
      simp only [Bool.false_eq_true, if_false]
      apply ih
      intro hn
      obtain ⟨v, hv, hvm⟩ := hs hn
      rcases List.mem_cons.mp hv with rfl | hv
      · rw [hm] at hvm; cases hvm
      · exact ⟨v, hv, hvm⟩

/-- A second node named `version` is never resolved when the registry already has one:
the run does not depend on it. -/
theorem Execute_shadow (F : Framework) (initializers : List Initializer)
    (registry : List Command) (x y : Command) (args : List String) (w : World)
    (hx : x.Name = "version") (hxa : x.Aliases = [])
    (hy : y.Name = "version") (hya : y.Aliases = [])
    (hs : ∃ v ∈ registry, v.matchesName "version" = true) :
    (treeWith registry x).Execute F initializers args w =
      (treeWith registry y).Execute F initializers args w := by
  unfold Command.Execute Command.ExecuteC
  simp only [treeWith_help]
  have hN : ∀ cs, ({ rootCmd with commands := cs } : Command).Name = "immuadmin" :=
    fun cs => Name_immuadmin _ rfl
  have hA : ∀ next a, innerfindNext F "immuadmin" (registry ++ [x, helpCommand F rootCmd]) next a =
      innerfindNext F "immuadmin" (registry ++ [y, helpCommand F rootCmd]) next a := by
    intro next a
    apply innerfindNext_shadow F _ _ _ x y _ hx hxa hy hya
    intro hn
    subst hn
    exact hs
  unfold Command.Find
  simp only [hN, innerfind_eq, hA]
  cases hsf : stripFlags F "immuadmin" args with
  | nil =>
    simp [rootCmd, legacyArgsValidation, Command.HasSubCommands, execute, hsf]
  | cons next rest =>
    simp only
    cases hf : innerfindNext F "immuadmin" (registry ++ [y, helpCommand F rootCmd]) next
        (argsMinusFirstX F "immuadmin" args next) with
    | some found => simp [rootCmd]
    | none =>
      simp [rootCmd, legacyArgsValidation, Command.HasSubCommands, execute, hsf]

/-- Resolution by `Find` on the single word `version` when the first registry node of that name is a
leaf `v`. -/
theorem Find_registry_version (F : Framework) (ident : Identity) (pre post : List Command)
    (v : Command) (hpre : ∀ x ∈ pre, x.matchesName "version" = false)
    (hv : v.matchesName "version" = true) (hleaf : v.commands = []) (hArgs : v.Args = none) :
    ((tree (pre ++ v :: post) ident).InitDefaultHelpCmd F).Find F ["version"] =
      (⟨v, "immuadmin" ++ " " ++ v.Name, true, []⟩, none) := by
  have hp : plain ["version"] = true := by decide
  have hp0 : plain [] = true := rfl
  have h1 : innerfindNext F "immuadmin"
      ((tree (pre ++ v :: post) ident).InitDefaultHelpCmd F).commands "version" [] =
      some ⟨v, "immuadmin" ++ " " ++ v.Name, true, []⟩ := by
    rw [tree_help]
    simp only [List.append_assoc]
    rw [innerfindNext_skip _ _ _ _ _ _ hpre, List.cons_append, innerfindNext_cons, hv]
    simp only [if_true, innerfind_eq, stripFlags_plain _ _ _ hp0]
  unfold Command.Find
  simp only
  rw [tree_help_Name, innerfind_eq, stripFlags_plain _ _ _ hp]
  simp only [argsMinusFirstX_head _ _ _ _ hp, h1]
  simp [hArgs, legacyArgsValidation, Command.HasSubCommands, hleaf]

/-- When the registry has a leaf named `version`, the word `version` runs that node. -/
theorem main_registry_version (F : Framework) (ident : Identity) (pre post : List Command)
    (v : Command) (f : List String → c.Options → Result)
    (hpre : ∀ x ∈ pre, x.matchesName "version" = false)
    (hv : v.matchesName "version" = true) (hleaf : v.commands = []) (hArgs : v.Args = none)
    (hrun : v.RunE = some f) :
    ∃ tail, (main F (pre ++ v :: post) ident ["version"]).trace =
      Event.initConfig "immuadmin" :: Event.begin ("immuadmin" ++ " " ++ v.Name) ::
        ((f [] (o.InitConfig "immuadmin")).output.map Event.wrote ++
          Event.finished (f [] (o.InitConfig "immuadmin")).err :: tail) := by
  have hp0 : plain [] = true := rfl
  unfold main Command.Execute Command.ExecuteC
  simp only [Find_registry_version F ident pre post v hpre hv hleaf hArgs, execute,
    ParseFlags_plain _ _ _ hp0, preRun_init, hrun, Command.ValidateArgs, hArgs]
  rw [tree_help]
  simp only [World.emit, World.write, Bool.false_eq_true, if_false, List.nil_append]
  generalize f [] (o.InitConfig "immuadmin") = r
  obtain ⟨out, res⟩ := r
  cases res with
  | none => exact ⟨[], by simp⟩
  | some e =>
    by_cases he : e = Error.ErrHelp
    · exact ⟨[Event.help ("immuadmin" ++ " " ++ v.Name)], by simp [he]⟩
    · exact ⟨[Event.reported e.message], by simp [he, rootCmd, c.QuitToStdErr]⟩

/-! ## Properties of the dispatch layer -/

theorem filter_wrote (p : Event → Bool) (hp : ∀ x, p (Event.wrote x) = false)
    (out : List Output) : (out.map Event.wrote).filter p = [] := by
  induction out with
  | nil => rfl
  | cons x xs ih => simp [List.filter_cons, hp, ih]

/-- C1, amended: when the selected execution function returns an error `E` other than
the help sentinel `pflag.ErrHelp`, `Execute` on the tree of `main` returns `E` and `main`
hands `E` to `c.QuitToStdErr`: the message of `E` is written on standard error and the
exit status is not 0. -/
theorem function_error_is_reported (F : Framework) (registry : List Command)
    (ident : Identity) (args : List String) (E : Error) (hE : E ≠ Error.ErrHelp)
    (h : Event.finished (some E) ∈ (main F registry ident args).trace) :
    ((tree registry ident).Execute F init args { o := o, trace := [] }).2 = some E ∧
      main F registry ident args = c.QuitToStdErr E
        ((tree registry ident).Execute F init args { o := o, trace := [] }).1 ∧
      Event.reported E.message ∈ (main F registry ident args).trace ∧
      (main F registry ident args).status ≠ 0 := by
  have hs := Execute_shape F registry ident args
  unfold main at h ⊢
  generalize (tree registry ident).Execute F init args { o := o, trace := [] } = r at hs h ⊢
  cases hs with
  | early e => simp [c.QuitToStdErr] at h
  | help p => simp at h
  | invalid e => simp [c.QuitToStdErr] at h
  | invalidHelp p => simp at h
  | ran p out res hne =>
    cases res with
    | none => simp at h
    | some e =>
      simp [c.QuitToStdErr] at h
      subst h
      simp [c.QuitToStdErr, c.quitStatus]
  | ranHelp p out =>
    simp at h
    exact absurd h hE

/-- C2: when the selected execution function returns no error, `main` returns with exit
status 0 and nothing in the run is error reporting: no line of `c.QuitToStdErr`, no error
line and no usage text of the framework. -/
theorem main_silent_on_success (F : Framework) (registry : List Command) (ident : Identity)
    (args : List String)
    (h : Event.finished none ∈ (main F registry ident args).trace) :
    (main F registry ident args).status = 0 ∧
      ∀ e ∈ (main F registry ident args).trace, e.isErrorReport = false := by
  have hs := Execute_shape F registry ident args
  unfold main at h ⊢
  generalize (tree registry ident).Execute F init args { o := o, trace := [] } = r at hs h ⊢
  cases hs with
  | early e => simp [c.QuitToStdErr] at h
  | help p => simp at h
  | invalid e => simp [c.QuitToStdErr] at h
  | invalidHelp p => simp at h
  | ran p out res hne =>
    cases res with
    | none =>
      simp only [true_and]
      intro e he
      simp at he
      rcases he with rfl | rfl | ⟨a, _, rfl⟩ | rfl <;> rfl
    | some e => simp [c.QuitToStdErr] at h
  | ranHelp p out => simp at h

/-- C3, amended: in every run the configuration initializer is called at most once; in
every run in which an execution function begins, the trace starts with the one call
`InitConfig("immuadmin")`, followed by the start of that function, and neither occurs
again. -/
theorem initConfig_before_run (F : Framework) (registry : List Command) (ident : Identity)
    (args : List String) :
    ((main F registry ident args).trace.filter Event.isInitConfig).length ≤ 1 ∧
      ∀ p, Event.begin p ∈ (main F registry ident args).trace →
        ∃ rest, (main F registry ident args).trace =
            Event.initConfig "immuadmin" :: Event.begin p :: rest ∧
          ∀ e ∈ rest, e.isInitConfig = false ∧ e.isBegin = false := by
  have hs := Execute_shape F registry ident args
  unfold main
  generalize (tree registry ident).Execute F init args { o := o, trace := [] } = r at hs ⊢
  have hw := filter_wrote Event.isInitConfig (fun _ => rfl)
  cases hs with
  | early e => simp [c.QuitToStdErr, List.filter_cons, Event.isInitConfig]
  | help p => simp [List.filter_cons, Event.isInitConfig]
  | invalid e => simp [c.QuitToStdErr, List.filter_cons, Event.isInitConfig]
  | invalidHelp p => simp [List.filter_cons, Event.isInitConfig]
  | ran p out res hne =>
    cases res with
    | none =>
      simp only [List.filter_cons, Event.isInitConfig, List.filter_append, hw]
      refine ⟨by simp, ?_⟩
      intro q hq
      simp at hq
      subst hq
      refine ⟨_, rfl, ?_⟩
      intro e he
      simp at he
      rcases he with ⟨a, _, rfl⟩ | rfl <;> exact ⟨rfl, rfl⟩
    | some e =>
      simp only [c.QuitToStdErr, List.filter_cons, Event.isInitConfig, List.filter_append, hw,
        List.cons_append]
      refine ⟨by simp, ?_⟩
      intro q hq
      simp at hq
      subst hq
      refine ⟨_, rfl, ?_⟩
      intro e he
      simp at he
      rcases he with ⟨a, _, rfl⟩ | rfl | rfl <;> exact ⟨rfl, rfl⟩
  | ranHelp p out =>
    simp only [List.filter_cons, Event.isInitConfig, List.filter_append, hw]
    refine ⟨by simp, ?_⟩
    intro q hq
    simp at hq
    subst hq
    refine ⟨_, rfl, ?_⟩
    intro e he
    simp at he
    rcases he with ⟨a, _, rfl⟩ | rfl | rfl <;> exact ⟨rfl, rfl⟩

/-- An error returned by the execution function, other than the help sentinel, is the
error `Execute` returns. -/
theorem Execute_returns_function_error (F : Framework) (registry : List Command)
    (ident : Identity) (args : List String) (E : Error) (hE : E ≠ Error.ErrHelp)
    (h : Event.finished (some E) ∈
      ((tree registry ident).Execute F init args { o := o, trace := [] }).1.trace) :
    ((tree registry ident).Execute F init args { o := o, trace := [] }).2 = some E := by
  have hs := Execute_shape F registry ident args
  generalize (tree registry ident).Execute F init args { o := o, trace := [] } = r at hs h ⊢
  cases hs with
  | early e => simp at h
  | help p => simp at h
  | invalid e => simp at h
  | invalidHelp p => simp at h
  | ran p out res hne =>
    simp at h
    exact h.symm
  | ranHelp p out =>
    simp at h
    exact absurd h hE

/-- At most one execution function begins in a run of `main`. -/
theorem main_begin_le_one (F : Framework) (registry : List Command) (ident : Identity)
    (args : List String) :
    ((main F registry ident args).trace.filter Event.isBegin).length ≤ 1 := by
  have hs := Execute_shape F registry ident args
  unfold main
  generalize (tree registry ident).Execute F init args { o := o, trace := [] } = r at hs ⊢
  have hw := filter_wrote Event.isBegin (fun _ => rfl)
  cases hs with
  | early e => simp [c.QuitToStdErr, List.filter_cons, Event.isBegin]
  | help p => simp [List.filter_cons, Event.isBegin]
  | invalid e => simp [c.QuitToStdErr, List.filter_cons, Event.isBegin]
  | invalidHelp p => simp [List.filter_cons, Event.isBegin]
  | ran p out res hne =>
    cases res with
    | none => simp [List.filter_cons, Event.isBegin, List.filter_append, hw]
    | some e => simp [c.QuitToStdErr, List.filter_cons, Event.isBegin, List.filter_append, hw]
  | ranHelp p out => simp [List.filter_cons, Event.isBegin, List.filter_append, hw]

/-- The framework itself reports nothing in a run of the tree of `main`. -/
theorem Execute_no_report (F : Framework) (registry : List Command) (ident : Identity)
    (args : List String) :
    ∀ e ∈ ((tree registry ident).Execute F init args { o := o, trace := [] }).1.trace,
      e.isErrorReport = false := by
  have hs := Execute_shape F registry ident args
  generalize (tree registry ident).Execute F init args { o := o, trace := [] } = r at hs ⊢
  cases hs with
  | early e => simp
  | help p => simp [Event.isErrorReport]
  | invalid e => simp [Event.isErrorReport]
  | invalidHelp p => simp [Event.isErrorReport]
  | ran p out res hne =>
    intro e he
    simp at he
    rcases he with rfl | rfl | ⟨a, _, rfl⟩ | rfl <;> rfl
  | ranHelp p out =>
    intro e he
    simp at he
    rcases he with rfl | rfl | ⟨a, _, rfl⟩ | rfl | rfl <;> rfl

theorem filter_eq_nil_of_all (p : Event → Bool) (l : List Event)
    (h : ∀ e ∈ l, p e = false) : l.filter p = [] := by
  induction l with
  | nil => rfl
  | cons x xs ih =>
    simp [List.filter_cons, h x (List.mem_cons_self _ _),
      ih (fun e he => h e (List.mem_cons_of_mem _ he))]

/-- C4: for every application identity, when the word `version` selects the node `main`
attaches (the registry has no node of that name), the run prints one text on standard
output that contains all five values, returns no error and ends with status 0. -/
theorem version_prints_identity (F : Framework) (registry : List Command)
    (App Version Commit BuiltBy BuiltAt : String)
    (hreg : ∀ x ∈ registry, x.matchesName "version" = false) :
    ∃ text,
      main F registry
          { App := App, Version := Version, Commit := Commit, BuiltBy := BuiltBy,
            BuiltAt := BuiltAt } ["version"] =
        { trace := [Event.initConfig "immuadmin", Event.begin "immuadmin version",
            Event.wrote (Output.stdout text), Event.finished none],
          status := 0 } ∧
      containsText text App ∧ containsText text Version ∧ containsText text Commit ∧
      containsText text BuiltBy ∧ containsText text BuiltAt := by
  refine ⟨c.VersionStr App Version Commit BuiltBy BuiltAt, ?_, ?_, ?_, ?_, ?_, ?_⟩
  · unfold main
    rw [Execute_version F registry _ hreg]
  · exact ⟨[], (" " ++ Version ++ "\nCommit  : " ++ Commit ++ "\nBuilt by: " ++ BuiltBy ++
      "\nBuilt at: " ++ BuiltAt).data, by simp [c.VersionStr, String.data_append]⟩
  · exact ⟨(App ++ " ").data, ("\nCommit  : " ++ Commit ++ "\nBuilt by: " ++ BuiltBy ++
      "\nBuilt at: " ++ BuiltAt).data, by simp [c.VersionStr, String.data_append]⟩
  · exact ⟨(App ++ " " ++ Version ++ "\nCommit  : ").data, ("\nBuilt by: " ++ BuiltBy ++
      "\nBuilt at: " ++ BuiltAt).data, by simp [c.VersionStr, String.data_append]⟩
  · exact ⟨(App ++ " " ++ Version ++ "\nCommit  : " ++ Commit ++ "\nBuilt by: ").data,
      ("\nBuilt at: " ++ BuiltAt).data, by simp [c.VersionStr, String.data_append]⟩
  · exact ⟨(App ++ " " ++ Version ++ "\nCommit  : " ++ Commit ++ "\nBuilt by: " ++ BuiltBy ++
      "\nBuilt at: ").data, [], by simp [c.VersionStr, String.data_append]⟩

/-- C4, at the identity immuadmin, 1.2.3, abc123, ci, 2020-01-01. -/
theorem version_prints_identity_witness :
    (∀ x ∈ ([] : List Command), x.matchesName "version" = false) ∧
    ∃ text,
      main wordsOnly []
          { App := "immuadmin", Version := "1.2.3", Commit := "abc123", BuiltBy := "ci",
            BuiltAt := "2020-01-01" } ["version"] =
        { trace := [Event.initConfig "immuadmin", Event.begin "immuadmin version",
            Event.wrote (Output.stdout text), Event.finished none],
          status := 0 } ∧
      containsText text "immuadmin" ∧ containsText text "1.2.3" ∧
      containsText text "abc123" ∧ containsText text "ci" ∧
      containsText text "2020-01-01" :=
  ⟨by simp, version_prints_identity wordsOnly [] "immuadmin" "1.2.3" "abc123" "ci"
    "2020-01-01" (by simp)⟩

set_option maxRecDepth 100000 in
/-- C9: the root literal has the usage name `immuadmin`, has `SilenceUsage`,
`SilenceErrors` and `DisableAutoGenTag` set, and its long description documents exactly
three environment variables, the upper-cased application name followed by `_ADDRESS`,
`_PORT` and `_MTLS`. -/
theorem root_command_fields :
    rootCmd.Use = "immuadmin" ∧ rootCmd.SilenceUsage = true ∧ rootCmd.SilenceErrors = true ∧
      rootCmd.DisableAutoGenTag = true ∧
      documentedVariables rootCmd.Long =
        [upper ({} : Identity).App ++ "_ADDRESS", upper ({} : Identity).App ++ "_PORT",
          upper ({} : Identity).App ++ "_MTLS"] := by
  refine ⟨rfl, rfl, rfl, rfl, ?_⟩
  decide

/-- C1 amended, at a concrete run: the registry node `fail` returns the error `boom`. -/
theorem function_error_is_reported_witness :
    Error.New "boom" ≠ Error.ErrHelp ∧
      Event.finished (some (Error.New "boom")) ∈
        (main wordsOnly [failing] {} ["fail"]).trace ∧
      ((tree [failing] {}).Execute wordsOnly init ["fail"] { o := o, trace := [] }).2 =
        some (Error.New "boom") ∧
      main wordsOnly [failing] {} ["fail"] =
        c.QuitToStdErr (Error.New "boom")
          ((tree [failing] {}).Execute wordsOnly init ["fail"] { o := o, trace := [] }).1 ∧
      Event.reported (Error.New "boom").message ∈
        (main wordsOnly [failing] {} ["fail"]).trace ∧
      (main wordsOnly [failing] {} ["fail"]).status ≠ 0 :=
  ⟨by decide, by decide,
    function_error_is_reported wordsOnly [failing] {} ["fail"] (Error.New "boom")
      (by decide) (by decide)⟩

/-- C1, as stated, fails: the registry node `ask` returns the help sentinel
`pflag.ErrHelp`; the framework answers with the help of the node, `Execute` returns no
error, and `main` ends with status 0 without reporting the message of the error. -/
theorem help_sentinel_not_reported :
    main wordsOnly [helpAsking] {} ["ask"] =
        { trace := [Event.initConfig "immuadmin", Event.begin "immuadmin ask",
            Event.finished (some Error.ErrHelp), Event.help "immuadmin ask"],
          status := 0 } ∧
      Event.reported Error.ErrHelp.message ∉ (main wordsOnly [helpAsking] {} ["ask"]).trace := by
  decide

/-- C2, at a concrete run: the `version` node of an empty registry. -/
theorem main_silent_on_success_witness :
    Event.finished none ∈ (main wordsOnly [] {} ["version"]).trace ∧
      ((main wordsOnly [] {} ["version"]).status = 0 ∧
        ∀ e ∈ (main wordsOnly [] {} ["version"]).trace, e.isErrorReport = false) :=
  ⟨by decide, main_silent_on_success wordsOnly [] {} ["version"] (by decide)⟩

/-- C3, as stated, fails: run without arguments, `main` shows the help of the root and the
configuration initializer is not called at all. -/
theorem no_args_skips_initConfig :
    main wordsOnly [] {} [] = { trace := [Event.help "immuadmin"], status := 0 } ∧
      ((main wordsOnly [] {} []).trace.filter Event.isInitConfig).length = 0 := by
  decide

/-- C3 amended, at a concrete run: the `version` node of an empty registry. -/
theorem initConfig_before_run_witness :
    Event.begin "immuadmin version" ∈ (main wordsOnly [] {} ["version"]).trace ∧
      ((main wordsOnly [] {} ["version"]).trace.filter Event.isInitConfig).length ≤ 1 ∧
      ∃ rest, (main wordsOnly [] {} ["version"]).trace =
          Event.initConfig "immuadmin" :: Event.begin "immuadmin version" :: rest ∧
        ∀ e ∈ rest, e.isInitConfig = false ∧ e.isBegin = false :=
  ⟨by decide, (initConfig_before_run wordsOnly [] {} ["version"]).1,
    (initConfig_before_run wordsOnly [] {} ["version"]).2 "immuadmin version" (by decide)⟩

/-- C5: with `Version`, `Commit`, `BuiltBy` and `BuiltAt` empty, the word `version` still
runs the node: it returns no error, prints a text that contains the application name, and
the exit status is 0. -/
theorem version_without_build_values (F : Framework) (registry : List Command) (App : String)
    (hreg : ∀ x ∈ registry, x.matchesName "version" = false) :
    ∃ text,
      main F registry
          { App := App, Version := "", Commit := "", BuiltBy := "", BuiltAt := "" }
          ["version"] =
        { trace := [Event.initConfig "immuadmin", Event.begin "immuadmin version",
            Event.wrote (Output.stdout text), Event.finished none],
          status := 0 } ∧
      containsText text App := by
  refine ⟨c.VersionStr App "" "" "" "", ?_, ?_⟩
  · unfold main
    rw [Execute_version F registry _ hreg]
  · exact ⟨[], (" " ++ "" ++ "\nCommit  : " ++ "" ++ "\nBuilt by: " ++ "" ++
      "\nBuilt at: " ++ "").data, by simp [c.VersionStr, String.data_append]⟩

/-- C5, at the application name of the source. -/
theorem version_without_build_values_witness :
    (∀ x ∈ ([] : List Command), x.matchesName "version" = false) ∧
    ∃ text,
      main wordsOnly [] { App := "immuadmin" } ["version"] =
        { trace := [Event.initConfig "immuadmin", Event.begin "immuadmin version",
            Event.wrote (Output.stdout text), Event.finished none],
          status := 0 } ∧
      containsText text "immuadmin" :=
  ⟨by simp, version_without_build_values wordsOnly [] "immuadmin" (by simp)⟩

/-- C6: the root literal has no execution function and has `SilenceUsage` and
`SilenceErrors` set; run without arguments, `main` shows the help of the root and ends
with status 0. -/
theorem no_subcommand_shows_help (F : Framework) (registry : List Command) (ident : Identity) :
    rootCmd.RunE = none ∧ rootCmd.SilenceUsage = true ∧ rootCmd.SilenceErrors = true ∧
      main F registry ident [] = { trace := [Event.help "immuadmin"], status := 0 } := by
  refine ⟨rfl, rfl, rfl, ?_⟩
  unfold main
  rw [Execute_no_args]

/-- C7, as stated, fails: the word `foo` names no node; `Execute` returns the error
`unknown command "foo" for "immuadmin"`, `main` reports it with status 1, and the help
of the root is not shown. -/
theorem unknown_subcommand_no_help :
    main wordsOnly [] {} ["foo"] =
        { trace := [Event.reported "unknown command \"foo\" for \"immuadmin\""],
          status := 1 } ∧
      Event.help "immuadmin" ∉ (main wordsOnly [] {} ["foo"]).trace := by
  decide

/-- C7, amended: at most one execution function begins in a run; without arguments the
help of the root is shown and the status is 0; a first word that names no child of the
root (no registry node, not `version`, not `help`), in arguments without flags, is
rejected with the error `unknown command`, the word and the root name each as `%q` writes
them, followed by the suggestion text of the framework; `main` reports it with a non-zero
status and without help. -/
theorem unknown_subcommand_is_reported (F : Framework) (registry : List Command)
    (ident : Identity) (a : String) (rest : List String) (hp : plain (a :: rest) = true)
    (hreg : ∀ x ∈ registry, x.matchesName a = false) (hv : a ≠ "version")
    (hh : a ≠ "help") :
    main F registry ident (a :: rest) =
        { trace := [Event.reported ("unknown command " ++ quote F a ++ " for " ++
            quote F "immuadmin" ++ F.findSuggestions "immuadmin" a)],
          status := c.quitStatus } ∧
      main F registry ident [] = { trace := [Event.help "immuadmin"], status := 0 } ∧
      ∀ args, ((main F registry ident args).trace.filter Event.isBegin).length ≤ 1 := by
  refine ⟨?_, ?_, fun args => main_begin_le_one F registry ident args⟩
  · unfold main
    rw [Execute_unknown F registry ident a rest hp hreg hv hh]
    rfl
  · unfold main
    rw [Execute_no_args]

/-- C7 amended, at the word `foo` and an empty registry. -/
theorem unknown_subcommand_is_reported_witness :
    plain ["foo"] = true ∧ (∀ x ∈ ([] : List Command), x.matchesName "foo" = false) ∧
      "foo" ≠ "version" ∧ "foo" ≠ "help" ∧
      main wordsOnly [] {} ["foo"] =
        { trace := [Event.reported ("unknown command " ++ quote wordsOnly "foo" ++ " for " ++
            quote wordsOnly "immuadmin" ++ wordsOnly.findSuggestions "immuadmin" "foo")],
          status := c.quitStatus } ∧
      main wordsOnly [] {} [] = { trace := [Event.help "immuadmin"], status := 0 } ∧
      ∀ args, ((main wordsOnly [] {} args).trace.filter Event.isBegin).length ≤ 1 :=
  ⟨by decide, by simp, by decide, by decide,
    unknown_subcommand_is_reported wordsOnly [] {} "foo" [] (by decide) (by simp)
      (by decide) (by decide)⟩

/-- C8: when the registry already has a node `v` named `version`, a second node of that
name attached by `main` is overridden by it on every run: the outcome of `Execute` is the
same whatever the second node is, at most one execution function begins, and on the word
`version` it is the one of `v` (for `v` a leaf without argument validator). -/
theorem duplicate_version_first_wins (F : Framework) (ident : Identity)
    (pre post : List Command) (v second : Command) (args : List String)
    (hpre : ∀ x ∈ pre, x.matchesName "version" = false)
    (hv : v.matchesName "version" = true)
    (hn : second.Name = "version") (ha : second.Aliases = []) :
    (treeWith (pre ++ v :: post) second).Execute F init args { o := o, trace := [] } =
        (tree (pre ++ v :: post) ident).Execute F init args { o := o, trace := [] } ∧
      ((main F (pre ++ v :: post) ident args).trace.filter Event.isBegin).length ≤ 1 ∧
      ∀ f, v.commands = [] → v.Args = none → v.RunE = some f →
        ∃ tail, (main F (pre ++ v :: post) ident ["version"]).trace =
          Event.initConfig "immuadmin" :: Event.begin ("immuadmin" ++ " " ++ v.Name) ::
            ((f [] (o.InitConfig "immuadmin")).output.map Event.wrote ++
              Event.finished (f [] (o.InitConfig "immuadmin")).err :: tail) := by
  refine ⟨?_, main_begin_le_one F _ ident args, ?_⟩
  · exact Execute_shadow F init _ second _ args _ hn ha (VersionCmd_Name _ _ _ _ _) rfl
      ⟨v, by simp, hv⟩
  · intro f hleaf hArgs hrun
    exact main_registry_version F ident pre post v f hpre hv hleaf hArgs hrun

/-- C8, at a registry holding its own `version` node. -/
theorem duplicate_version_first_wins_witness :
    (∀ x ∈ ([] : List Command), x.matchesName "version" = false) ∧
      registryVersion.matchesName "version" = true ∧
      (c.VersionCmd "other" "9.9.9" "" "" "").Name = "version" ∧
      (c.VersionCmd "other" "9.9.9" "" "" "").Aliases = [] ∧
      main wordsOnly [registryVersion] {} ["version"] =
        { trace := [Event.initConfig "immuadmin", Event.begin "immuadmin version",
            Event.wrote (Output.stdout "registry version"), Event.finished none],
          status := 0 } ∧
      (treeWith ([] ++ registryVersion :: []) (c.VersionCmd "other" "9.9.9" "" "" "")).Execute
          wordsOnly init ["version"] { o := o, trace := [] } =
        (tree ([] ++ registryVersion :: []) {}).Execute wordsOnly init ["version"]
          { o := o, trace := [] } ∧
      ((main wordsOnly ([] ++ registryVersion :: []) {} ["version"]).trace.filter
        Event.isBegin).length ≤ 1 :=
  ⟨by simp, by decide, by decide, by decide, by decide,
    (duplicate_version_first_wins wordsOnly {} [] [] registryVersion
      (c.VersionCmd "other" "9.9.9" "" "" "") ["version"] (by simp) (by decide) (by decide)
      (by decide)).1,
    (duplicate_version_first_wins wordsOnly {} [] [] registryVersion
      (c.VersionCmd "other" "9.9.9" "" "" "") ["version"] (by simp) (by decide) (by decide)
      (by decide)).2.1⟩

/-- C10: when `Execute` returns an error `E`, the framework has reported nothing (root
built with `SilenceErrors` and `SilenceUsage`), and the run of `main` is that trace
followed by one line of `c.QuitToStdErr`, the message of `E`: it is the only error
reporting of the run. -/
theorem single_error_report (F : Framework) (registry : List Command) (ident : Identity)
    (args : List String) (w : World) (E : Error)
    (h : (tree registry ident).Execute F init args { o := o, trace := [] } = (w, some E)) :
    (main F registry ident args).trace = w.trace ++ [Event.reported E.message] ∧
      (∀ e ∈ w.trace, e.isErrorReport = false) ∧
      (main F registry ident args).trace.filter Event.isErrorReport =
        [Event.reported E.message] := by
  have hno := Execute_no_report F registry ident args
  rw [h] at hno
  have ht : (main F registry ident args).trace = w.trace ++ [Event.reported E.message] := by
    unfold main
    rw [h]
    rfl
  refine ⟨ht, hno, ?_⟩
  rw [ht, List.filter_append, filter_eq_nil_of_all _ _ hno]
  rfl

/-- C10, at a concrete run: the registry node `fail` returns the error `boom`. -/
theorem single_error_report_witness :
    (tree [failing] {}).Execute wordsOnly init ["fail"] { o := o, trace := [] } =
        ({ o := o.InitConfig "immuadmin",
           trace := [Event.initConfig "immuadmin", Event.begin "immuadmin fail",
             Event.finished (some (Error.New "boom"))] }, some (Error.New "boom")) ∧
      (main wordsOnly [failing] {} ["fail"]).trace =
        [Event.initConfig "immuadmin", Event.begin "immuadmin fail",
          Event.finished (some (Error.New "boom")), Event.reported "boom"] ∧
      (main wordsOnly [failing] {} ["fail"]).trace.filter Event.isErrorReport =
        [Event.reported (Error.New "boom").message] :=
  ⟨by decide, by decide,
    (single_error_report wordsOnly [failing] {} ["fail"]
      { o := o.InitConfig "immuadmin",
        trace := [Event.initConfig "immuadmin", Event.begin "immuadmin fail",
          Event.finished (some (Error.New "boom"))] }
      (Error.New "boom") (by decide)).2.2⟩

end immuadmin
